import Mathlib

/-!
Verification of the `ny2026` fireworks program (`braille_canvas.py`, `main.py`)
against its natural-language specification.

The Python source is shallowly embedded: floats become `ℚ` (all operations the
claims touch are exact field operations), Python ints become `ℤ`/`ℕ`, mutable
objects become explicit state records, and the random draws consumed by
`Firework.explode` become explicit parameters.
-/

namespace NY2026

/-- A color as used by `BrailleCanvas`: either a palette index (0-7, rendered
through `BrailleCanvas.COLORS`) or an RGB escape string from `rgb_color`. -/
inductive Color where
  | idx (n : ℕ)
  | rgb (r g b : ℕ)
deriving DecidableEq, Repr

/-- One cell of the canvas buffer: `(braille_value, color)`. -/
abbrev Cell := ℕ × Color

/-- `BrailleCanvas` state: pixel dimensions, the character-cell buffer and the
default color. `char_width`/`char_height` are derived as in `__init__`. -/
structure Canvas where
  width : ℕ
  height : ℕ
  defaultColor : Color
  buffer : List (List Cell)
deriving Repr

/-- `BrailleCanvas.char_width = (width + 1) // 2`. -/
def Canvas.charWidth (c : Canvas) : ℕ := (c.width + 1) / 2

/-- `BrailleCanvas.char_height = (height + 3) // 4`. -/
def Canvas.charHeight (c : Canvas) : ℕ := (c.height + 3) / 4

/-- `BrailleCanvas.BRAILLE_DOTS`: bit positions of the 2x4 dot grid, row major. -/
def BRAILLE_DOTS : List (List ℕ) := [[0, 3], [1, 4], [2, 5], [6, 7]]

/-- `BrailleCanvas.clear(color)`: every cell becomes `(0, color)` and the
default color is updated. -/
def Canvas.clear (c : Canvas) (color : Color) : Canvas :=
  { c with
    buffer := List.replicate c.charHeight (List.replicate c.charWidth ((0 : ℕ), color))
    defaultColor := color }

/-- Replace the element at index `i` of a list by `f` of its current value
(no-op when `i` is out of range, matching an always-in-range Python index). -/
def listModify {α : Type} (l : List α) (i : ℕ) (d : α) (f : α → α) : List α :=
  l.set i (f (l.getD i d))

/-- The body of the loop in `BrailleCanvas.plot` for a single point `(x, y)`:
bounds check, cell and dot decomposition, OR the dot bit into the mask and
overwrite the cell color. -/
def Canvas.plotPoint (c : Canvas) (color : Color) (p : ℤ × ℤ) : Canvas :=
  if 0 ≤ p.1 ∧ p.1 < (c.width : ℤ) ∧ 0 ≤ p.2 ∧ p.2 < (c.height : ℤ) then
    let x := p.1.toNat
    let y := p.2.toNat
    let charX := x >>> 1
    let charY := y >>> 2
    let dotX := x &&& 1
    let dotY := y &&& 3
    let bitPos := (BRAILLE_DOTS.getD dotY []).getD dotX 0
    { c with
      buffer := listModify c.buffer charY []
        (fun row => listModify row charX (0, c.defaultColor)
          (fun cell => (cell.1 ||| (1 <<< bitPos), color))) }
  else c

/-- `BrailleCanvas.plot(color, points)`. -/
def Canvas.plot (c : Canvas) (color : Color) (points : List (ℤ × ℤ)) : Canvas :=
  points.foldl (fun acc p => acc.plotPoint color p) c

/-- The loop of `BrailleCanvas._bresenham_line`, with explicit fuel.  State is
the current point `(x, y)` and the error term; each iteration yields the
current point, stops at `(tx, ty)`, and otherwise steps `x` and/or `y`. -/
def bresAux (tx ty dx dy sx sy : ℤ) : ℕ → ℤ → ℤ → ℤ → List (ℤ × ℤ)
  | fuel, x, y, err =>
    (x, y) ::
      (if x = tx ∧ y = ty then []
       else
         match fuel with
         | 0 => []
         | fuel' + 1 =>
           let e2 := 2 * err
           let err1 := if e2 > -dy then err - dy else err
           let x' := if e2 > -dy then x + sx else x
           let err2 := if e2 < dx then err1 + dx else err1
           let y' := if e2 < dx then y + sy else y
           bresAux tx ty dx dy sx sy fuel' x' y' err2)

/-- `BrailleCanvas._bresenham_line(x0, y0, x1, y1)`: the full list of points
yielded by the generator.  Fuel `dx + dy` always suffices (proved below). -/
def bresenhamLine (x0 y0 x1 y1 : ℤ) : List (ℤ × ℤ) :=
  let dx := |x1 - x0|
  let dy := |y1 - y0|
  let sx : ℤ := if x0 < x1 then 1 else -1
  let sy : ℤ := if y0 < y1 then 1 else -1
  bresAux x1 y1 dx dy sx sy (dx + dy).toNat x0 y0 (dx - dy)

/-- `BrailleCanvas.line(x0, y0, x1, y1, color)`: plots the Bresenham points. -/
def Canvas.line (c : Canvas) (x0 y0 x1 y1 : ℤ) (color : Color) : Canvas :=
  c.plot color (bresenhamLine x0 y0 x1 y1)

/-- One token of the rendered output stream: a color-switch escape (either a
palette code from `COLORS` or a literal RGB string), a reset escape, or one
Braille glyph character given by its code point. -/
inductive Tok where
  | switch (c : Color)
  | reset
  | glyph (code : ℕ)
deriving DecidableEq, Repr

/-- `BrailleCanvas.BRAILLE_OFFSET`. -/
def BRAILLE_OFFSET : ℕ := 0x2800

/-- The inner loop of `BrailleCanvas.render` over one buffer row: tracks the
previously emitted color, emits a reset plus a color switch only on change,
then the glyph `chr(BRAILLE_OFFSET + braille_val)`; a final reset closes the
row if any color was emitted. -/
def renderRow (row : List Cell) : List Tok :=
  let step := row.foldl
    (fun (acc : List Tok × Option Color) cell =>
      let parts :=
        if some cell.2 ≠ acc.2 then
          acc.1 ++ (if acc.2.isSome then [Tok.reset] else []) ++ [Tok.switch cell.2]
        else acc.1
      (parts ++ [Tok.glyph (BRAILLE_OFFSET + cell.1)], some cell.2))
    ([], none)
  step.1 ++ (if step.2.isSome then [Tok.reset] else [])

/-- `BrailleCanvas.render()`: one token row per buffer row (the `'\r\033[B'`
join is the row separator and carries no color information). -/
def Canvas.render (c : Canvas) : List (List Tok) :=
  c.buffer.map renderRow

/-- The cell stored at character position `(cx, cy)`. -/
def Canvas.cellAt (c : Canvas) (cy cx : ℕ) : Cell :=
  (c.buffer.getD cy []).getD cx (0, c.defaultColor)

/-- The buffer has the shape `__init__`/`clear` establish:
`char_height` rows of `char_width` cells. -/
def Canvas.wf (c : Canvas) : Prop :=
  c.buffer.length = c.charHeight ∧ ∀ row ∈ c.buffer, row.length = c.charWidth

/-- Every dot mask in the buffer is a legal 8-bit value. -/
def Canvas.maskWF (c : Canvas) : Prop :=
  ∀ row ∈ c.buffer, ∀ cell ∈ row, cell.1 < 256

/-- The three buffer-mutating operations of `BrailleCanvas`. -/
inductive CanvasOp where
  | clear (color : Color)
  | plot (color : Color) (points : List (ℤ × ℤ))
  | line (x0 y0 x1 y1 : ℤ) (color : Color)

/-- Apply one canvas operation. -/
def applyCanvasOp (c : Canvas) : CanvasOp → Canvas
  | CanvasOp.clear color => c.clear color
  | CanvasOp.plot color pts => c.plot color pts
  | CanvasOp.line x0 y0 x1 y1 color => c.line x0 y0 x1 y1 color

/-! ## SoundManager -/

/-- Python's built-in `round` to an integer: nearest integer, ties to the even
integer (banker's rounding). -/
def pyRound (q : ℚ) : ℤ :=
  if q - ⌊q⌋ = 1 / 2 then (if Even ⌊q⌋ then ⌊q⌋ else ⌊q⌋ + 1) else round q

/-- `np.clip(q, lo, hi)`. -/
def npClip (q lo hi : ℚ) : ℚ := max lo (min hi q)

/-- Python's `round(q, 3)`: round to three decimal places, banker's rounding. -/
def pyRound3 (q : ℚ) : ℚ := (pyRound (q * 1000) : ℚ) / 1000

/-- The pan computation of `SoundManager.play_explosion`: normalize `x` to
`[-1, 1]`, clip, quantize to a multiple of `0.125`, clip and round to three
decimals (the cache key formation). -/
def quantizedPan (x screenWidth : ℚ) : ℚ :=
  let pan := x / screenWidth * 2 - 1
  let pan := npClip pan (-1) 1
  let q := (pyRound (pan / (1 / 8)) : ℚ) * (1 / 8)
  pyRound3 (npClip q (-1) 1)

/-- `SoundManager.max_concurrent_sounds`. -/
def maxConcurrentSounds : ℕ := 8

/-- One element of `SoundManager.active_sounds`: `[sound_data, position]`.
Samples are stereo `(left, right)` pairs in `ℚ`. -/
structure Voice where
  data : List (ℚ × ℚ)
  pos : ℕ
deriving DecidableEq, Repr

/-- The mutable `SoundManager` state shared by the trigger path and the audio
callback: the enabled flag, the pan-keyed stereo cache (an association list
over exact pan keys) and the active-voice list. -/
structure SMState where
  enabled : Bool
  stereoCache : List (ℚ × List (ℚ × ℚ))
  activeSounds : List Voice
deriving DecidableEq, Repr

/-- `dict.get` on the stereo cache. -/
def cacheGet (cache : List (ℚ × List (ℚ × ℚ))) (k : ℚ) : Option (List (ℚ × ℚ)) :=
  (cache.find? (fun e => e.1 = k)).map (·.2)

/-- `SoundManager.play_explosion(x, screen_width)`: no-op when disabled, the
cache is empty, or the voice count is already at the ceiling; otherwise look
up the quantized pan in the cache (falling back to the center bucket, then to
dropping the event) and append a fresh voice at cursor 0. -/
def playExplosion (s : SMState) (x screenWidth : ℚ) : SMState :=
  if ¬s.enabled ∨ s.stereoCache = [] then s
  else if maxConcurrentSounds ≤ s.activeSounds.length then s
  else
    match cacheGet s.stereoCache (quantizedPan x screenWidth) with
    | some d => { s with activeSounds := s.activeSounds ++ [⟨d, 0⟩] }
    | none =>
      match cacheGet s.stereoCache 0 with
      | some d => { s with activeSounds := s.activeSounds ++ [⟨d, 0⟩] }
      | none => s

/-- Pointwise sum on stereo samples. -/
def addSample (a b : ℚ × ℚ) : ℚ × ℚ := (a.1 + b.1, a.2 + b.2)

/-- One iteration of the mixing loop of `SoundManager._audio_callback` for one
voice: `to_output = min(remaining, frames)` samples are added into the buffer
(`outdata[:to_output] += sound_data[position : position + to_output]`) and the
voice's cursor advances by `to_output`. -/
def callbackStep (frames : ℕ) (acc : List (ℚ × ℚ) × List Voice) (v : Voice) :
    List (ℚ × ℚ) × List Voice :=
  let remaining := v.data.length - v.pos
  let toOutput := min remaining frames
  let buf := acc.1.mapIdx (fun j s =>
    if j < toOutput then addSample s (v.data.getD (v.pos + j) (0, 0)) else s)
  (buf, acc.2 ++ [⟨v.data, v.pos + toOutput⟩])

/-- `SoundManager._audio_callback`: zero the buffer, mix every active voice,
then drop the voices whose cursor reached the end of their data (the code
marks index `i` when `position + to_output >= len(sound_data)`). Returns the
filled buffer and the surviving voice list. -/
def audioCallback (voices : List Voice) (frames : ℕ) :
    List (ℚ × ℚ) × List Voice :=
  let r := voices.foldl (callbackStep frames) (List.replicate frames ((0 : ℚ), (0 : ℚ)), [])
  (r.1, r.2.filter (fun v => v.pos < v.data.length))

/-- The two operations that touch `active_sounds`, both serialized by
`sound_lock`: a `play_explosion` trigger and one audio-callback pass. -/
inductive SMOp where
  | play (x screenWidth : ℚ)
  | callback (frames : ℕ)

/-- Apply one serialized operation to the `SoundManager` state. -/
def applySMOp (s : SMState) : SMOp → SMState
  | SMOp.play x w => playExplosion s x w
  | SMOp.callback frames => { s with activeSounds := (audioCallback s.activeSounds frames).2 }

/-! ## Particle and Firework -/

/-- Python `int()` on a rational: truncation toward zero. -/
def intTrunc (q : ℚ) : ℤ := if q < 0 then ⌈q⌉ else ⌊q⌋

/-- `Particle`: 3D position and velocity, color, lifetime and age. -/
structure Particle where
  x : ℚ
  y : ℚ
  z : ℚ
  vx : ℚ
  vy : ℚ
  vz : ℚ
  color : Color
  lifetime : ℚ
  age : ℚ
deriving DecidableEq, Repr

/-- `Particle.update(dt, gravity, air_resistance)`: gravity on `vy`, damping
on all velocity components, position integration, age advance. -/
def Particle.update (p : Particle) (dt gravity airResistance : ℚ) : Particle :=
  let vy0 := p.vy + gravity * dt
  let vx := p.vx * airResistance
  let vy := vy0 * airResistance
  let vz := p.vz * airResistance
  { p with
    vx := vx, vy := vy, vz := vz,
    x := p.x + vx * dt, y := p.y + vy * dt, z := p.z + vz * dt,
    age := p.age + dt }

/-- `Particle.is_alive()`. -/
def Particle.isAlive (p : Particle) : Bool := p.age < p.lifetime

/-- `Particle.get_2d_position(camera_distance, center_x, center_y)`: the
camera-at-origin perspective projection, `(-1, -1)` when behind the camera. -/
def Particle.get2dPosition (p : Particle) (cameraDistance centerX centerY : ℚ) :
    ℤ × ℤ :=
  let zOffset := p.z + cameraDistance
  if zOffset ≤ 0 then (-1, -1)
  else
    let scale := cameraDistance / zOffset
    (intTrunc (centerX + (p.x - centerX) * scale),
     intTrunc (centerY + (p.y - centerY) * scale))

/-- The projection inlined in `Firework.render`: depth relative to the moving
camera plus the focal distance 200; behind-camera points are skipped. -/
def projectPoint (px py pz cameraZ centerX centerY : ℚ) : Option (ℤ × ℤ) :=
  let zRelative := pz - cameraZ
  let zOffset := zRelative + 200
  if zOffset ≤ 0 then none
  else
    let scale := 200 / zOffset
    some (intTrunc (centerX + (px - centerX) * scale),
          intTrunc (centerY + (py - centerY) * scale))

/-- The particle branch of `Firework.render`: project every particle, skip
behind-camera particles, keep the in-bounds integer screen points (these are
the dots handed to `canvas.plot`). -/
def fireworkRenderPoints (particles : List Particle) (canvasW canvasH : ℕ)
    (cameraZ : ℚ) : List (ℤ × ℤ) :=
  particles.filterMap (fun p =>
    match projectPoint p.x p.y p.z cameraZ ((canvasW : ℚ) / 2) ((canvasH : ℚ) / 2) with
    | none => none
    | some (sx, sy) =>
      if 0 ≤ sx ∧ sx < (canvasW : ℤ) ∧ 0 ≤ sy ∧ sy < (canvasH : ℤ) then some (sx, sy)
      else none)

/-- The random draws consumed by one `Firework.explode` call:
`num_particles = random.randint(450, 750)`, the shared burst speed, and per
particle the spherical direction (the `sin`/`cos` image of the sampled angles,
kept abstract as a unit vector) and the lifetime draws. -/
structure Draws where
  numParticles : ℕ
  speed : ℚ
  dir : ℕ → ℚ × ℚ × ℚ
  baseLifetime : ℕ → ℚ
  lifetimeVariation : ℕ → ℚ

/-- `Firework` state: launch position/velocity, phase flag, particles, apex
latch, apex timer and the bounded launch trail. -/
structure FwState where
  x : ℚ
  y : ℚ
  z : ℚ
  vx : ℚ
  vy : ℚ
  vz : ℚ
  color : Color
  exploded : Bool
  particles : List Particle
  apexReached : Bool
  timeSinceApex : ℚ
  launchTrail : List (ℚ × ℚ)

/-- `Firework.explode()` (the sound trigger, modelled separately as
`playExplosion`, does not touch the firework state): set the phase flag and
append `numParticles` particles at the current position, each with velocity
`speed` times its sampled direction and lifetime `base + variation`. -/
def FwState.explode (s : FwState) (r : Draws) : FwState :=
  { s with
    exploded := true
    particles := s.particles ++ (List.range r.numParticles).map (fun i =>
      let d := r.dir i
      { x := s.x, y := s.y, z := s.z,
        vx := r.speed * d.1, vy := r.speed * d.2.1, vz := r.speed * d.2.2,
        color := s.color,
        lifetime := r.baseLifetime i + r.lifetimeVariation i,
        age := 0 }) }

/-- `Firework.update(dt)`.  Launch phase: gravity, integration, trail ring of
at most 15 positions, apex latch on `vy > 0`, apex timer, explosion once the
timer reaches 1.0.  Exploded phase: update every particle with gravity 50 and
damping 0.97, then drop dead particles. -/
def FwState.update (s : FwState) (dt : ℚ) (r : Draws) : FwState :=
  if s.exploded = false then
    let vy := s.vy + 100 * dt
    let x := s.x + s.vx * dt
    let y := s.y + vy * dt
    let trail0 := s.launchTrail ++ [(x, y)]
    let trail := if 15 < trail0.length then trail0.drop 1 else trail0
    let apex := if vy > 0 ∧ s.apexReached = false then true else s.apexReached
    let tsa := if apex then s.timeSinceApex + dt else s.timeSinceApex
    let s1 := { s with
      vy := vy, x := x, y := y, launchTrail := trail,
      apexReached := apex, timeSinceApex := tsa }
    if apex = true ∧ 1 ≤ tsa then s1.explode r else s1
  else
    { s with
      particles := (s.particles.map (fun p => p.update dt 50 (97 / 100))).filter
        (fun p => p.isAlive) }

/-- `Firework.is_finished()`. -/
def FwState.isFinished (s : FwState) : Bool :=
  s.exploded && s.particles.length = 0

/-! ## Helper lemmas -/

theorem listModify_comp {α : Type} (l : List α) (i : ℕ) (d : α) (f g : α → α) :
    listModify (listModify l i d f) i d g = listModify l i d (fun x => g (f x)) := by
  induction l generalizing i with
  | nil => simp [listModify]
  | cons a t ih =>
    cases i with
    | zero => simp [listModify]
    | succ n =>
      simp only [listModify, List.set_cons_succ, List.getD_cons_succ]
      exact congrArg (a :: ·) (ih n)

theorem plotPoint_width (c : Canvas) (col : Color) (p : ℤ × ℤ) :
    (c.plotPoint col p).width = c.width ∧ (c.plotPoint col p).height = c.height ∧
      (c.plotPoint col p).defaultColor = c.defaultColor := by
  unfold Canvas.plotPoint
  split <;> simp

/-- Plotting the same point twice collapses to plotting it once with the last
color: the OR into the mask is idempotent and the color is overwritten. -/
theorem plotPoint_plotPoint (c : Canvas) (col col' : Color) (p : ℤ × ℤ) :
    (c.plotPoint col p).plotPoint col' p = c.plotPoint col' p := by
  by_cases hb : 0 ≤ p.1 ∧ p.1 < (c.width : ℤ) ∧ 0 ≤ p.2 ∧ p.2 < (c.height : ℤ)
  · unfold Canvas.plotPoint
    simp only [if_pos hb]
    simp only [listModify_comp]
    congr 1
    apply congrArg
    funext row
    apply congrArg
    funext cell
    simp [Nat.or_assoc]
  · unfold Canvas.plotPoint
    simp only [if_neg hb]

theorem listModify_getD {α : Type} (l : List α) (i : ℕ) (d d' : α) (f : α → α)
    (h : i < l.length) : (listModify l i d f).getD i d' = f (l.getD i d') := by
  unfold listModify
  have h' : i < (l.set i (f (l.getD i d))).length := by simpa using h
  rw [List.getD_eq_getElem _ _ h', List.getElem_set_self _,
    List.getD_eq_getElem _ _ h, List.getD_eq_getElem _ _ h]

theorem plotPoint_out (c : Canvas) (col : Color) (p : ℤ × ℤ)
    (h : ¬(0 ≤ p.1 ∧ p.1 < (c.width : ℤ) ∧ 0 ≤ p.2 ∧ p.2 < (c.height : ℤ))) :
    c.plotPoint col p = c := by
  unfold Canvas.plotPoint
  rw [if_neg h]

theorem foldl_plotPoint_getLast (p : ℤ × ℤ) (cols : List Color) (h : cols ≠ []) :
    ∀ c : Canvas,
      cols.foldl (fun acc cl => acc.plotPoint cl p) c = c.plotPoint (cols.getLast h) p := by
  induction cols with
  | nil => exact absurd rfl h
  | cons a t ih =>
    intro c
    cases t with
    | nil => simp [List.getLast]
    | cons b t' =>
      rw [List.foldl_cons, ih (by simp) (c.plotPoint a p), plotPoint_plotPoint]
      exact congrArg (fun cl => c.plotPoint cl p) (by simp [List.getLast])

theorem plotPoint_cellAt (c : Canvas) (col : Color) (p : ℤ × ℤ)
    (hwf : c.wf) (hb : 0 ≤ p.1 ∧ p.1 < (c.width : ℤ) ∧ 0 ≤ p.2 ∧ p.2 < (c.height : ℤ)) :
    (c.plotPoint col p).cellAt (p.2.toNat / 4) (p.1.toNat / 2) =
      ((c.cellAt (p.2.toNat / 4) (p.1.toNat / 2)).1 |||
        (1 <<< ((BRAILLE_DOTS.getD (p.2.toNat % 4) []).getD (p.1.toNat % 2) 0)), col) := by
  have hx2 : p.1.toNat >>> 1 = p.1.toNat / 2 := by
    rw [Nat.shiftRight_eq_div_pow]
  have hy4 : p.2.toNat >>> 2 = p.2.toNat / 4 := by
    rw [Nat.shiftRight_eq_div_pow]
  have hxm : p.1.toNat &&& 1 = p.1.toNat % 2 := Nat.and_one_is_mod _
  have hym : p.2.toNat &&& 3 = p.2.toNat % 4 := by
    have h2 := Nat.and_pow_two_sub_one_eq_mod p.2.toNat 2
    norm_num at h2
    exact h2
  have hylt : p.2.toNat / 4 < c.buffer.length := by
    rw [hwf.1]
    have : p.2.toNat < c.height := by omega
    unfold Canvas.charHeight
    omega
  have hrow : c.buffer.getD (p.2.toNat / 4) [] ∈ c.buffer := by
    rw [List.getD_eq_getElem _ _ hylt]
    exact List.getElem_mem hylt
  have hxlt : p.1.toNat / 2 < (c.buffer.getD (p.2.toNat / 4) []).length := by
    rw [hwf.2 _ hrow]
    have : p.1.toNat < c.width := by omega
    unfold Canvas.charWidth
    omega
  unfold Canvas.plotPoint
  rw [if_pos hb]
  unfold Canvas.cellAt
  dsimp only
  rw [hx2, hy4, hxm, hym]
  rw [listModify_getD _ _ _ _ _ hylt, listModify_getD _ _ _ _ _ hxlt]

/-! ## Claim theorems -/

/-- **C4.** `plot` is idempotent on the dot mask: an out-of-bounds point leaves
the buffer unchanged; plotting the same in-bounds point any number of times
with any colors equals plotting it once with the last color; a single plot of
an in-bounds `(x, y)` sets, in cell `(x >> 1, y >> 2)`, exactly the dot bit
given by the `(x mod 2, y mod 4)` entry of the fixed table, ORed onto the old
mask, and overwrites that cell's color with the plotted color (last write
wins). -/
theorem plot_mask_idempotent_last_write_wins (c : Canvas) (col col' : Color)
    (p : ℤ × ℤ) (cols : List Color) :
    (¬(0 ≤ p.1 ∧ p.1 < (c.width : ℤ) ∧ 0 ≤ p.2 ∧ p.2 < (c.height : ℤ)) →
        c.plotPoint col p = c) ∧
    ((c.plotPoint col p).plotPoint col' p = c.plotPoint col' p) ∧
    (∀ h : cols ≠ [],
        cols.foldl (fun acc cl => acc.plotPoint cl p) c =
          c.plotPoint (cols.getLast h) p) ∧
    (c.wf → (0 ≤ p.1 ∧ p.1 < (c.width : ℤ) ∧ 0 ≤ p.2 ∧ p.2 < (c.height : ℤ)) →
        (c.plotPoint col p).cellAt (p.2.toNat / 4) (p.1.toNat / 2) =
          ((c.cellAt (p.2.toNat / 4) (p.1.toNat / 2)).1 |||
            (1 <<< ((BRAILLE_DOTS.getD (p.2.toNat % 4) []).getD (p.1.toNat % 2) 0)),
            col) ∧
        Nat.testBit ((c.plotPoint col p).cellAt (p.2.toNat / 4) (p.1.toNat / 2)).1
          ((BRAILLE_DOTS.getD (p.2.toNat % 4) []).getD (p.1.toNat % 2) 0) = true) := by
  refine ⟨plotPoint_out c col p, plotPoint_plotPoint c col col' p,
    fun h => foldl_plotPoint_getLast p cols h c, fun hwf hb => ⟨plotPoint_cellAt c col p hwf hb, ?_⟩⟩
  rw [plotPoint_cellAt c col p hwf hb]
  simp [Nat.one_shiftLeft, Nat.testBit_or, Nat.testBit_two_pow_self]

/-- Witness for C4 on a concrete 4x8 canvas: point `(1, 2)` lands in cell
`(0, 0)` on dot bit 5, repeated plots collapse to the last one, and the
out-of-bounds point `(5, 0)` is dropped. -/
theorem plot_mask_idempotent_last_write_wins_witness :
    ((((⟨4, 8, Color.idx 7, []⟩ : Canvas).clear (Color.idx 7)).plotPoint (Color.idx 1)
        (1, 2)).plotPoint (Color.idx 2) (1, 2) =
      ((⟨4, 8, Color.idx 7, []⟩ : Canvas).clear (Color.idx 7)).plotPoint (Color.idx 2) (1, 2)) ∧
    ([Color.idx 1, Color.idx 2].foldl (fun acc cl => acc.plotPoint cl (1, 2))
        ((⟨4, 8, Color.idx 7, []⟩ : Canvas).clear (Color.idx 7)) =
      ((⟨4, 8, Color.idx 7, []⟩ : Canvas).clear (Color.idx 7)).plotPoint (Color.idx 2) (1, 2)) ∧
    ((((⟨4, 8, Color.idx 7, []⟩ : Canvas).clear (Color.idx 7)).plotPoint (Color.idx 1)
        (1, 2)).cellAt 0 0 = (32, Color.idx 1)) ∧
    (Nat.testBit ((((⟨4, 8, Color.idx 7, []⟩ : Canvas).clear (Color.idx 7)).plotPoint
        (Color.idx 1) (1, 2)).cellAt 0 0).1 5 = true) ∧
    (((⟨4, 8, Color.idx 7, []⟩ : Canvas).clear (Color.idx 7)).plotPoint (Color.idx 1) (5, 0) =
      ((⟨4, 8, Color.idx 7, []⟩ : Canvas).clear (Color.idx 7))) := by
  have h := plot_mask_idempotent_last_write_wins
    (((⟨4, 8, Color.idx 7, []⟩ : Canvas)).clear (Color.idx 7)) (Color.idx 1) (Color.idx 2)
    (1, 2) [Color.idx 1, Color.idx 2]
  have h5 := plot_mask_idempotent_last_write_wins
    (((⟨4, 8, Color.idx 7, []⟩ : Canvas)).clear (Color.idx 7)) (Color.idx 1) (Color.idx 2)
    (5, 0) []
  have hwf : (((⟨4, 8, Color.idx 7, []⟩ : Canvas)).clear (Color.idx 7)).wf :=
    ⟨by decide, by decide⟩
  have hb : (0 : ℤ) ≤ 1 ∧ (1 : ℤ) < ((((⟨4, 8, Color.idx 7, []⟩ : Canvas)).clear
      (Color.idx 7)).width : ℤ) ∧ (0 : ℤ) ≤ 2 ∧ (2 : ℤ) <
      ((((⟨4, 8, Color.idx 7, []⟩ : Canvas)).clear (Color.idx 7)).height : ℤ) := by decide
  exact ⟨h.2.1, h.2.2.1 (by decide), (h.2.2.2 hwf hb).1, (h.2.2.2 hwf hb).2,
    h5.1 (by decide)⟩

theorem renderRow_fold_const (color : Color) :
    ∀ (k : ℕ) (parts : List Tok),
      (List.replicate k ((0 : ℕ), color)).foldl
        (fun (acc : List Tok × Option Color) cell =>
          let parts :=
            if some cell.2 ≠ acc.2 then
              acc.1 ++ (if acc.2.isSome then [Tok.reset] else []) ++ [Tok.switch cell.2]
            else acc.1
          (parts ++ [Tok.glyph (BRAILLE_OFFSET + cell.1)], some cell.2))
        (parts, some color) =
      (parts ++ List.replicate k (Tok.glyph BRAILLE_OFFSET), some color) := by
  intro k
  induction k with
  | zero => intro parts; simp
  | succ n ih =>
    intro parts
    rw [List.replicate_succ, List.foldl_cons, ih]
    simp [List.replicate_succ]

theorem renderRow_replicate_zero (color : Color) (n : ℕ) (hn : 0 < n) :
    renderRow (List.replicate n ((0 : ℕ), color)) =
      Tok.switch color ::
        (List.replicate n (Tok.glyph BRAILLE_OFFSET) ++ [Tok.reset]) := by
  obtain ⟨k, rfl⟩ : ∃ k, n = k + 1 := ⟨n - 1, by omega⟩
  unfold renderRow
  rw [List.replicate_succ, List.foldl_cons]
  have h0 : ((([] : List Tok), (none : Option Color))).2 = none := rfl
  simp only [renderRow_fold_const color k]
  simp [List.replicate_succ]

/-- **C8.** Rendering a freshly cleared positive-size canvas emits, for every
character row, exactly one color switch (the cleared color) at the start,
then one blank Braille glyph per cell, then a single trailing reset — no
other color switches, independent of the canvas width. -/
theorem render_cleared_one_switch_per_row (c0 : Canvas) (color : Color)
    (hw : 0 < c0.width) (_hh : 0 < c0.height) :
    (c0.clear color).render.length = c0.charHeight ∧
    ∀ row ∈ (c0.clear color).render,
      row = Tok.switch color ::
          (List.replicate c0.charWidth (Tok.glyph BRAILLE_OFFSET) ++ [Tok.reset]) ∧
      row.countP (fun t => match t with | Tok.switch _ => true | _ => false) = 1 ∧
      row.getLast? = some Tok.reset := by
  have hcw : 0 < c0.charWidth := by unfold Canvas.charWidth; omega
  have hrow : ∀ row ∈ (c0.clear color).render,
      row = Tok.switch color ::
        (List.replicate c0.charWidth (Tok.glyph BRAILLE_OFFSET) ++ [Tok.reset]) := by
    intro row hr
    unfold Canvas.render Canvas.clear at hr
    simp only [List.mem_map, List.mem_replicate] at hr
    obtain ⟨r, ⟨hne, rfl⟩, rfl⟩ := hr
    exact renderRow_replicate_zero color _ hcw
  refine ⟨?_, fun row hr => ⟨hrow row hr, ?_, ?_⟩⟩
  · unfold Canvas.render Canvas.clear Canvas.charHeight
    simp [Canvas.charHeight]
  · rw [hrow row hr]
    simp only [List.countP_cons, List.countP_append]
    have : (List.replicate c0.charWidth (Tok.glyph BRAILLE_OFFSET)).countP
        (fun t => match t with | Tok.switch _ => true | _ => false) = 0 := by
      rw [List.countP_eq_zero]
      intro t ht
      rw [List.eq_of_mem_replicate ht]
      simp
    simp [this, List.countP_cons]
  · rw [hrow row hr]
    rw [show Tok.switch color ::
        (List.replicate c0.charWidth (Tok.glyph BRAILLE_OFFSET) ++ [Tok.reset]) =
        (Tok.switch color :: List.replicate c0.charWidth (Tok.glyph BRAILLE_OFFSET)) ++
          [Tok.reset] from rfl]
    exact List.getLast?_concat _

/-- Witness for C8 on a concrete 5x6 canvas cleared to color 2. -/
theorem render_cleared_one_switch_per_row_witness :
    ((⟨5, 6, Color.idx 7, []⟩ : Canvas).clear (Color.idx 2)).render.length =
        (⟨5, 6, Color.idx 7, []⟩ : Canvas).charHeight ∧
    ∀ row ∈ ((⟨5, 6, Color.idx 7, []⟩ : Canvas).clear (Color.idx 2)).render,
      row = Tok.switch (Color.idx 2) ::
          (List.replicate (⟨5, 6, Color.idx 7, []⟩ : Canvas).charWidth
            (Tok.glyph BRAILLE_OFFSET) ++ [Tok.reset]) ∧
      row.countP (fun t => match t with | Tok.switch _ => true | _ => false) = 1 ∧
      row.getLast? = some Tok.reset :=
  render_cleared_one_switch_per_row (⟨5, 6, Color.idx 7, []⟩ : Canvas) (Color.idx 2)
    (by decide) (by decide)

theorem braille_bit_le_seven (dy dx : ℕ) :
    (BRAILLE_DOTS.getD dy []).getD dx 0 ≤ 7 := by
  unfold BRAILLE_DOTS
  rcases dy with _ | _ | _ | _ | dy <;> rcases dx with _ | _ | dx <;>
    simp [List.getD, List.get?]

theorem or_bit_lt_256 (v b : ℕ) (hv : v < 256) (hb : b ≤ 7) :
    v ||| (1 <<< b) < 256 := by
  have h1 : 1 <<< b < 2 ^ 8 := by
    rw [Nat.one_shiftLeft]
    calc 2 ^ b ≤ 2 ^ 7 := Nat.pow_le_pow_right (by norm_num) hb
    _ < 2 ^ 8 := by norm_num
  have h2 : v < 2 ^ 8 := by norm_num at hv ⊢; exact hv
  have := Nat.bitwise_lt (f := or) h2 h1
  simpa [HOr.hOr, OrOp.or, Nat.lor] using this

theorem getD_row_maskWF (c : Canvas) (h : c.maskWF) (i : ℕ) :
    ∀ cell ∈ c.buffer.getD i [], cell.1 < 256 := by
  by_cases hi : i < c.buffer.length
  · rw [List.getD_eq_getElem _ _ hi]
    exact h _ (List.getElem_mem hi)
  · rw [List.getD_eq_default _ _ (by omega)]
    intro cell hc
    exact absurd hc (List.not_mem_nil cell)

theorem plotPoint_maskWF (c : Canvas) (col : Color) (p : ℤ × ℤ)
    (h : c.maskWF) : (c.plotPoint col p).maskWF := by
  unfold Canvas.plotPoint
  split
  · intro row hrow cell hcell
    simp only [listModify] at hrow
    rcases List.mem_or_eq_of_mem_set hrow with hold | hnew
    · exact h row hold cell hcell
    · subst hnew
      rcases List.mem_or_eq_of_mem_set hcell with hcold | hcnew
      · exact getD_row_maskWF c h _ cell hcold
      · subst hcnew
        refine or_bit_lt_256 _ _ ?_ (braille_bit_le_seven _ _)
        by_cases hx : p.1.toNat >>> 1 < (c.buffer.getD (p.2.toNat >>> 2) []).length
        · rw [List.getD_eq_getElem _ _ hx]
          exact getD_row_maskWF c h _ _ (List.getElem_mem hx)
        · rw [List.getD_eq_default _ _ (by omega)]
          norm_num
  · exact h

theorem plot_maskWF (c : Canvas) (col : Color) (pts : List (ℤ × ℤ))
    (h : c.maskWF) : (c.plot col pts).maskWF := by
  unfold Canvas.plot
  induction pts generalizing c with
  | nil => exact h
  | cons q t ih => exact ih _ (plotPoint_maskWF c col q h)

theorem clear_maskWF (c : Canvas) (col : Color) : (c.clear col).maskWF := by
  intro row hrow cell hcell
  unfold Canvas.clear at hrow
  simp only [List.mem_replicate] at hrow
  rw [hrow.2] at hcell
  rw [List.eq_of_mem_replicate hcell]
  norm_num

theorem applyCanvasOp_maskWF (c : Canvas) (op : CanvasOp) (h : c.maskWF) :
    (applyCanvasOp c op).maskWF := by
  cases op with
  | clear col => exact clear_maskWF c col
  | plot col pts => exact plot_maskWF c col pts h
  | line x0 y0 x1 y1 col => exact plot_maskWF c col _ h

theorem renderRow_fold_mem (row : List Cell) :
    ∀ (acc : List Tok × Option Color) (t : Tok),
      t ∈ (row.foldl
        (fun (acc : List Tok × Option Color) cell =>
          let parts :=
            if some cell.2 ≠ acc.2 then
              acc.1 ++ (if acc.2.isSome then [Tok.reset] else []) ++ [Tok.switch cell.2]
            else acc.1
          (parts ++ [Tok.glyph (BRAILLE_OFFSET + cell.1)], some cell.2)) acc).1 →
      t ∈ acc.1 ∨ (∃ cell ∈ row, t = Tok.glyph (BRAILLE_OFFSET + cell.1)) ∨
        t = Tok.reset ∨ (∃ cl, t = Tok.switch cl) := by
  induction row with
  | nil => intro acc t ht; exact Or.inl ht
  | cons cell rest ih =>
    intro acc t ht
    rw [List.foldl_cons] at ht
    rcases ih _ t ht with hacc | hrest | hr | hs
    · dsimp only at hacc
      split at hacc <;> simp only [List.mem_append, List.mem_singleton] at hacc
      · rcases hacc with ((h1 | h2) | h3) | h4
        · exact Or.inl h1
        · split at h2 <;> simp at h2
          exact Or.inr (Or.inr (Or.inl h2))
        · exact Or.inr (Or.inr (Or.inr ⟨_, h3⟩))
        · exact Or.inr (Or.inl ⟨cell, by simp, h4⟩)
      · rcases hacc with h1 | h4
        · exact Or.inl h1
        · exact Or.inr (Or.inl ⟨cell, by simp, h4⟩)
    · obtain ⟨c2, hc2, rfl⟩ := hrest
      exact Or.inr (Or.inl ⟨c2, by simp [hc2], rfl⟩)
    · exact Or.inr (Or.inr (Or.inl hr))
    · exact Or.inr (Or.inr (Or.inr hs))

theorem renderRow_glyph_range (row : List Cell) (hm : ∀ cell ∈ row, cell.1 < 256) :
    ∀ t ∈ renderRow row, ∀ k, t = Tok.glyph k →
      0x2800 ≤ k ∧ k ≤ 0x28FF := by
  intro t ht k htk
  subst htk
  unfold renderRow at ht
  rcases List.mem_append.1 ht with hstep | hreset
  · rcases renderRow_fold_mem row _ _ hstep with h0 | hcell | hr | hs
    · exact absurd h0 (List.not_mem_nil _)
    · obtain ⟨cell, hc, heq⟩ := hcell
      have := hm cell hc
      have hk : k = BRAILLE_OFFSET + cell.1 := by
        injection heq
      unfold BRAILLE_OFFSET at hk
      omega
    · exact absurd hr (by simp)
    · obtain ⟨cl, hcl⟩ := hs
      exact absurd hcl (by simp)
  · split at hreset <;> simp at hreset

/-- **C10.** Under any sequence of `clear`, `plot` and `line` operations every
cell's dot mask stays in 0-255 (each plot ORs in one bit with index at most 7
from the fixed table; `clear` resets masks to 0), so every glyph emitted by
`render` has a code point in the Unicode Braille block U+2800-U+28FF. -/
theorem mask_byte_invariant_glyph_range (c0 : Canvas) (ops : List CanvasOp)
    (h : c0.maskWF) :
    (ops.foldl applyCanvasOp c0).maskWF ∧
    ∀ row ∈ (ops.foldl applyCanvasOp c0).render, ∀ t ∈ row, ∀ k,
      t = Tok.glyph k → 0x2800 ≤ k ∧ k ≤ 0x28FF := by
  have hfold : (ops.foldl applyCanvasOp c0).maskWF := by
    induction ops generalizing c0 with
    | nil => exact h
    | cons op t ih => exact ih _ (applyCanvasOp_maskWF c0 op h)
  refine ⟨hfold, ?_⟩
  intro row hrow t ht k htk
  unfold Canvas.render at hrow
  obtain ⟨brow, hbrow, rfl⟩ := List.mem_map.1 hrow
  exact renderRow_glyph_range brow (hfold brow hbrow) t ht k htk

/-- Witness for C10: a concrete plot+line+clear+plot history on a 6x8 canvas. -/
theorem mask_byte_invariant_glyph_range_witness :
    (([CanvasOp.plot (Color.idx 1) [(0, 0), (1, 1), (5, 7)],
        CanvasOp.line 0 0 5 7 (Color.idx 3),
        CanvasOp.clear (Color.idx 4),
        CanvasOp.plot (Color.idx 2) [(2, 3)]].foldl applyCanvasOp
      ((⟨6, 8, Color.idx 7, []⟩ : Canvas).clear (Color.idx 7))).maskWF) ∧
    ∀ row ∈ (([CanvasOp.plot (Color.idx 1) [(0, 0), (1, 1), (5, 7)],
        CanvasOp.line 0 0 5 7 (Color.idx 3),
        CanvasOp.clear (Color.idx 4),
        CanvasOp.plot (Color.idx 2) [(2, 3)]].foldl applyCanvasOp
      ((⟨6, 8, Color.idx 7, []⟩ : Canvas).clear (Color.idx 7))).render), ∀ t ∈ row, ∀ k,
      t = Tok.glyph k → 0x2800 ≤ k ∧ k ≤ 0x28FF :=
  mask_byte_invariant_glyph_range ((⟨6, 8, Color.idx 7, []⟩ : Canvas).clear (Color.idx 7))
    [CanvasOp.plot (Color.idx 1) [(0, 0), (1, 1), (5, 7)],
      CanvasOp.line 0 0 5 7 (Color.idx 3),
      CanvasOp.clear (Color.idx 4),
      CanvasOp.plot (Color.idx 2) [(2, 3)]]
    (by unfold Canvas.maskWF; decide)

/-- **C6.** The perspective projection computes `depth = z − camera.z + 200`
(focal distance 200); a point with `depth ≤ 0` is not visible (skipped, so it
contributes no plotted dots in `Firework.render`), otherwise the screen
position is `center + (point − center) · (200/depth)` truncated toward zero;
`Particle.get_2d_position` is the same map with the camera at `z = 0`,
reporting `(-1, -1)` for invisible points. -/
theorem perspective_projection_spec (px py pz cz cx cy : ℚ) :
    (pz - cz + 200 ≤ 0 → projectPoint px py pz cz cx cy = none) ∧
    (0 < pz - cz + 200 →
      projectPoint px py pz cz cx cy =
        some (intTrunc (cx + (px - cx) * (200 / (pz - cz + 200))),
              intTrunc (cy + (py - cy) * (200 / (pz - cz + 200))))) ∧
    (∀ q : Particle,
      q.get2dPosition 200 cx cy =
        match projectPoint q.x q.y q.z 0 cx cy with
        | none => (-1, -1)
        | some r => r) ∧
    (∀ (ps qs : List Particle) (pt : Particle) (w h : ℕ),
      pt.z - cz + 200 ≤ 0 →
      fireworkRenderPoints (ps ++ pt :: qs) w h cz =
        fireworkRenderPoints ps w h cz ++ fireworkRenderPoints qs w h cz) := by
  refine ⟨?_, ?_, ?_, ?_⟩
  · intro h
    simp only [projectPoint]
    rw [if_pos h]
  · intro h
    simp only [projectPoint]
    rw [if_neg (by linarith)]
  · intro q
    simp only [Particle.get2dPosition, projectPoint, sub_zero]
    by_cases hz : q.z + 200 ≤ 0
    · rw [if_pos hz, if_pos hz]
    · rw [if_neg hz, if_neg hz]
  · intro ps qs pt w h hz
    unfold fireworkRenderPoints
    rw [List.filterMap_append, List.filterMap_cons]
    have hnone : projectPoint pt.x pt.y pt.z cz ((w : ℚ) / 2) ((h : ℚ) / 2) = none := by
      simp only [projectPoint]
      rw [if_pos hz]
    rw [hnone]

/-- Witness for C6: a point 300 units behind the camera plane is invisible and
dropped from the render points; a visible point projects to the truncated
scaled position. -/
theorem perspective_projection_spec_witness :
    projectPoint 3 4 (-300) 0 10 20 = none ∧
    projectPoint 4 5 0 50 10 20 = some (2, 0) ∧
    fireworkRenderPoints [⟨3, 4, -300, 0, 0, 0, Color.idx 1, 1, 0⟩] 10 10 0 = [] := by
  refine ⟨(perspective_projection_spec 3 4 (-300) 0 10 20).1 (by norm_num), ?_, ?_⟩
  · have h := (perspective_projection_spec 4 5 0 50 10 20).2.1 (by norm_num)
    rw [h]
    norm_num [intTrunc]
  · exact (perspective_projection_spec 0 0 0 0 0 0).2.2.2 [] []
      ⟨3, 4, -300, 0, 0, 0, Color.idx 1, 1, 0⟩ 10 10 (by norm_num)

theorem pyRound_intCast (m : ℤ) : pyRound (m : ℚ) = m := by
  unfold pyRound
  rw [Int.floor_intCast, sub_self]
  rw [if_neg (by norm_num)]
  exact round_intCast m

theorem pyRound_mem (q : ℚ) : pyRound q = ⌊q⌋ ∨ pyRound q = ⌊q⌋ + 1 := by
  unfold pyRound
  by_cases hf : q - ⌊q⌋ = 1 / 2
  · rw [if_pos hf]
    by_cases he : Even ⌊q⌋
    · rw [if_pos he]; exact Or.inl rfl
    · rw [if_neg he]; exact Or.inr rfl
  · rw [if_neg hf, round_eq]
    have h1 : ⌊q⌋ ≤ ⌊q + 1 / 2⌋ := Int.floor_le_floor (by linarith)
    have h2 : ⌊q + 1 / 2⌋ ≤ ⌊q⌋ + 1 := by
      have : ⌊q + 1 / 2⌋ ≤ ⌊q + 1⌋ := Int.floor_le_floor (by linarith)
      rw [show q + 1 = q + (1 : ℤ) by norm_num, Int.floor_add_int] at this
      omega
    omega

theorem pyRound_abs_le (q : ℚ) : |(pyRound q : ℚ) - q| ≤ 1 / 2 := by
  unfold pyRound
  by_cases hf : q - ⌊q⌋ = 1 / 2
  · rw [if_pos hf]
    by_cases he : Even ⌊q⌋
    · rw [if_pos he, abs_sub_comm, show q - (⌊q⌋ : ℚ) = 1 / 2 from hf, abs_of_pos (by norm_num)]
    · rw [if_neg he]
      have : ((⌊q⌋ + 1 : ℤ) : ℚ) - q = 1 / 2 := by push_cast; linarith
      rw [this, abs_of_pos (by norm_num)]
  · rw [if_neg hf, abs_sub_comm]
    exact abs_sub_round q

theorem pyRound_tie_even (q : ℚ) (h : |(pyRound q : ℚ) - q| = 1 / 2) :
    Even (pyRound q) := by
  have hfl := Int.floor_le q
  have hfu := Int.lt_floor_add_one q
  by_cases hf : q - ⌊q⌋ = 1 / 2
  · unfold pyRound
    rw [if_pos hf]
    by_cases he : Even ⌊q⌋
    · rw [if_pos he]; exact he
    · rw [if_neg he]
      exact Int.even_add_one.2 he
  · exfalso
    have hr : pyRound q = round q := by unfold pyRound; rw [if_neg hf]
    rw [hr] at h
    rcases pyRound_mem q with hm | hm <;> rw [hr] at hm <;> rw [hm] at h
    · rw [abs_sub_comm, abs_of_nonneg (by linarith)] at h
      exact hf h
    · have hpos : ((⌊q⌋ + 1 : ℤ) : ℚ) - q > 0 := by push_cast; linarith
      rw [abs_of_pos hpos] at h
      apply hf
      push_cast at h
      linarith

theorem pyRound_nearest (q : ℚ) (k : ℤ) :
    |(pyRound q : ℚ) - q| ≤ |(k : ℚ) - q| := by
  by_cases hk : k = pyRound q
  · rw [hk]
  · have hne : k - pyRound q ≠ 0 := sub_ne_zero.2 hk
    have h1 : (1 : ℚ) ≤ |(k : ℚ) - (pyRound q : ℚ)| := by
      have h0 := Int.one_le_abs hne
      have h2 : (k : ℚ) - (pyRound q : ℚ) = ((k - pyRound q : ℤ) : ℚ) := by push_cast; ring
      rw [h2, ← Int.cast_abs]
      exact_mod_cast h0
    have h2 := pyRound_abs_le q
    have h3 : |(k : ℚ) - (pyRound q : ℚ)| ≤
        |(k : ℚ) - q| + |q - (pyRound q : ℚ)| := abs_sub_le _ _ _
    rw [abs_sub_comm q] at h3
    linarith

theorem pyRound_succ_fract_pos (q : ℚ) (h : pyRound q = ⌊q⌋ + 1) :
    0 < q - ⌊q⌋ := by
  by_cases hf : q - ⌊q⌋ = 1 / 2
  · linarith
  · have hr : pyRound q = round q := by unfold pyRound; rw [if_neg hf]
    rw [hr, round_eq] at h
    have := Int.floor_le (q + 1 / 2)
    rw [h] at this
    push_cast at this
    linarith

theorem pyRound_bounds (q : ℚ) (a b : ℤ) (ha : (a : ℚ) ≤ q) (hb : q ≤ (b : ℚ)) :
    a ≤ pyRound q ∧ pyRound q ≤ b := by
  have hfl : a ≤ ⌊q⌋ := Int.le_floor.2 ha
  have hfu : ⌊q⌋ ≤ b := by
    have h := Int.floor_le_floor hb
    rwa [Int.floor_intCast] at h
  rcases pyRound_mem q with h | h
  · omega
  · have hpos := pyRound_succ_fract_pos q h
    have hlt : (⌊q⌋ : ℚ) < (b : ℚ) := by linarith
    have : ⌊q⌋ < b := by exact_mod_cast hlt
    omega

theorem npClip_eq_self (v lo hi : ℚ) (h1 : lo ≤ v) (h2 : v ≤ hi) :
    npClip v lo hi = v := by
  unfold npClip
  rw [min_eq_right h2, max_eq_right h1]

theorem quantizedPan_eq (x sw : ℚ) :
    quantizedPan x sw =
      (pyRound (npClip (x / sw * 2 - 1) (-1) 1 * 8) : ℚ) / 8 := by
  have hp1 : -1 ≤ npClip (x / sw * 2 - 1) (-1) 1 := le_max_left _ _
  have hp2 : npClip (x / sw * 2 - 1) (-1) 1 ≤ 1 :=
    max_le (by norm_num) (min_le_left _ _)
  have hdiv : npClip (x / sw * 2 - 1) (-1) 1 / (1 / 8) =
      npClip (x / sw * 2 - 1) (-1) 1 * 8 := by ring
  have hb := pyRound_bounds (npClip (x / sw * 2 - 1) (-1) 1 * 8) (-8) 8
    (by push_cast; linarith) (by push_cast; linarith)
  have hv1 : (-1 : ℚ) ≤ (pyRound (npClip (x / sw * 2 - 1) (-1) 1 * 8) : ℚ) * (1 / 8) := by
    have : ((-8 : ℤ) : ℚ) ≤ (pyRound (npClip (x / sw * 2 - 1) (-1) 1 * 8) : ℚ) := by
      exact_mod_cast hb.1
    push_cast at this
    linarith
  have hv2 : (pyRound (npClip (x / sw * 2 - 1) (-1) 1 * 8) : ℚ) * (1 / 8) ≤ 1 := by
    have : (pyRound (npClip (x / sw * 2 - 1) (-1) 1 * 8) : ℚ) ≤ ((8 : ℤ) : ℚ) := by
      exact_mod_cast hb.2
    push_cast at this
    linarith
  have hstart : quantizedPan x sw =
      pyRound3 (npClip ((pyRound (npClip (x / sw * 2 - 1) (-1) 1 / (1 / 8)) : ℚ) * (1 / 8))
        (-1) 1) := rfl
  rw [hstart, hdiv]
  rw [npClip_eq_self _ _ _ hv1 hv2]
  unfold pyRound3
  have hcast : (pyRound (npClip (x / sw * 2 - 1) (-1) 1 * 8) : ℚ) * (1 / 8) * 1000 =
      ((125 * pyRound (npClip (x / sw * 2 - 1) (-1) 1 * 8) : ℤ) : ℚ) := by
    push_cast
    ring
  rw [hcast, pyRound_intCast]
  push_cast
  ring

/-- **C2 (amended).** For positive screen width, `play_explosion` quantizes
the clamped pan to one of the 17 buckets `k/8`, `k = -8..8`; the chosen
bucket is always a nearest bucket; but a tie between two adjacent buckets is
resolved by Python's banker's rounding to the bucket whose index is even —
not always toward the lower bucket as the original claim states. -/
theorem pan_quantization_nearest_even_tie (x sw : ℚ) (_hsw : 0 < sw) :
    (∃ k : ℤ, -8 ≤ k ∧ k ≤ 8 ∧ quantizedPan x sw = (k : ℚ) / 8) ∧
    (∀ k : ℤ, -8 ≤ k → k ≤ 8 →
      |quantizedPan x sw - npClip (x / sw * 2 - 1) (-1) 1| ≤
        |(k : ℚ) / 8 - npClip (x / sw * 2 - 1) (-1) 1|) ∧
    (∀ k : ℤ, (k : ℚ) / 8 ≠ quantizedPan x sw →
      |(k : ℚ) / 8 - npClip (x / sw * 2 - 1) (-1) 1| =
        |quantizedPan x sw - npClip (x / sw * 2 - 1) (-1) 1| →
      ∃ m : ℤ, Even m ∧ quantizedPan x sw = (m : ℚ) / 8) := by
  have hp1 : -1 ≤ npClip (x / sw * 2 - 1) (-1) 1 := le_max_left _ _
  have hp2 : npClip (x / sw * 2 - 1) (-1) 1 ≤ 1 :=
    max_le (by norm_num) (min_le_left _ _)
  have hb := pyRound_bounds (npClip (x / sw * 2 - 1) (-1) 1 * 8) (-8) 8
    (by push_cast; linarith) (by push_cast; linarith)
  have heq := quantizedPan_eq x sw
  have habs : ∀ j : ℤ, |(j : ℚ) / 8 - npClip (x / sw * 2 - 1) (-1) 1| =
      |(j : ℚ) - npClip (x / sw * 2 - 1) (-1) 1 * 8| / 8 := by
    intro j
    rw [show (j : ℚ) / 8 - npClip (x / sw * 2 - 1) (-1) 1 =
      ((j : ℚ) - npClip (x / sw * 2 - 1) (-1) 1 * 8) / 8 by ring, abs_div]
    norm_num
  refine ⟨⟨pyRound (npClip (x / sw * 2 - 1) (-1) 1 * 8), hb.1, hb.2, heq⟩, ?_, ?_⟩
  · intro k _ _
    rw [heq, habs, habs]
    have := pyRound_nearest (npClip (x / sw * 2 - 1) (-1) 1 * 8) k
    linarith
  · intro k hne htie
    rw [heq, habs] at htie
    rw [habs] at htie
    have hkr : k ≠ pyRound (npClip (x / sw * 2 - 1) (-1) 1 * 8) := by
      intro hkr
      exact hne (by rw [heq, hkr])
    have h1 : (1 : ℚ) ≤ |(k : ℚ) - (pyRound (npClip (x / sw * 2 - 1) (-1) 1 * 8) : ℚ)| := by
      have h0 := Int.one_le_abs (sub_ne_zero.2 hkr)
      have h2 : (k : ℚ) - (pyRound (npClip (x / sw * 2 - 1) (-1) 1 * 8) : ℚ) =
          ((k - pyRound (npClip (x / sw * 2 - 1) (-1) 1 * 8) : ℤ) : ℚ) := by
        push_cast
        ring
      rw [h2, ← Int.cast_abs]
      exact_mod_cast h0
    have h2 := pyRound_abs_le (npClip (x / sw * 2 - 1) (-1) 1 * 8)
    have h3 : |(k : ℚ) - (pyRound (npClip (x / sw * 2 - 1) (-1) 1 * 8) : ℚ)| ≤
        |(k : ℚ) - npClip (x / sw * 2 - 1) (-1) 1 * 8| +
          |npClip (x / sw * 2 - 1) (-1) 1 * 8 -
            (pyRound (npClip (x / sw * 2 - 1) (-1) 1 * 8) : ℚ)| := abs_sub_le _ _ _
    rw [abs_sub_comm (npClip (x / sw * 2 - 1) (-1) 1 * 8)] at h3
    have htieq : |(pyRound (npClip (x / sw * 2 - 1) (-1) 1 * 8) : ℚ) -
        npClip (x / sw * 2 - 1) (-1) 1 * 8| = 1 / 2 := by
      have hk8 : |(k : ℚ) - npClip (x / sw * 2 - 1) (-1) 1 * 8| =
          |(pyRound (npClip (x / sw * 2 - 1) (-1) 1 * 8) : ℚ) -
            npClip (x / sw * 2 - 1) (-1) 1 * 8| := by
        have := htie
        field_simp at this
        linarith [abs_nonneg ((k : ℚ) - npClip (x / sw * 2 - 1) (-1) 1 * 8)]
      linarith
    have heven := pyRound_tie_even _ htieq
    exact ⟨pyRound (npClip (x / sw * 2 - 1) (-1) 1 * 8), heven, heq⟩

/-- C2 counterexample: at explosion position `x = 19` on a screen of width 32
the clamped pan is `3/16`, exactly halfway between the buckets `1/8` and
`1/4`; the claim's tie rule selects the lower bucket `1/8`, but the code's
`round(pan / 0.125)` (banker's rounding) selects `1/4`. -/
theorem pan_quantization_tie_counterexample :
    npClip ((19 : ℚ) / 32 * 2 - 1) (-1) 1 = 3 / 16 ∧
    |(1 : ℚ) / 8 - 3 / 16| = |(1 : ℚ) / 4 - 3 / 16| ∧
    (1 : ℚ) / 8 < 1 / 4 ∧
    quantizedPan 19 32 = 1 / 4 := by
  refine ⟨by norm_num [npClip], ?_, by norm_num, ?_⟩
  · rw [abs_of_nonpos (by norm_num), abs_of_nonneg (by norm_num)]
    norm_num
  · unfold quantizedPan npClip pyRound3 pyRound
    norm_num [round_eq, Int.even_iff]

/-- Witness for C2 at `x = 19`, width 32: the quantized pan is a bucket, it is
nearest to the clamped pan `3/16`, and the tie is resolved to an even bucket
index. -/
theorem pan_quantization_nearest_even_tie_witness :
    (∃ k : ℤ, -8 ≤ k ∧ k ≤ 8 ∧ quantizedPan 19 32 = (k : ℚ) / 8) ∧
    |quantizedPan 19 32 - npClip ((19 : ℚ) / 32 * 2 - 1) (-1) 1| ≤
      |(1 : ℚ) / 8 - npClip ((19 : ℚ) / 32 * 2 - 1) (-1) 1| ∧
    (∃ m : ℤ, Even m ∧ quantizedPan 19 32 = (m : ℚ) / 8) := by
  have h := pan_quantization_nearest_even_tie 19 32 (by norm_num)
  refine ⟨h.1, ?_, ?_⟩
  · have := h.2.1 1 (by norm_num) (by norm_num)
    simpa using this
  · refine h.2.2 1 ?_ ?_
    · unfold quantizedPan npClip pyRound3 pyRound
      norm_num [round_eq, Int.even_iff]
    · have he : npClip ((19 : ℚ) / 32 * 2 - 1) (-1) 1 = 3 / 16 := by norm_num [npClip]
      have hq : quantizedPan 19 32 = 1 / 4 := by
        unfold quantizedPan npClip pyRound3 pyRound
        norm_num [round_eq, Int.even_iff]
      rw [he, hq]
      rw [abs_of_nonpos (by norm_num), abs_of_nonneg (by norm_num)]
      norm_num

/-- **C1 (amended).** On a LAUNCHING tick the apex flag latches exactly when
the post-gravity vertical velocity `vy + 100·dt` becomes strictly positive —
a crossing to exactly zero does not latch (the code tests `vy > 0`, not
`vy >= 0`); the latch is one-shot (monotone, never cleared); once latched the
apex timer gains `dt` on every tick including the latching one, and the
firework explodes exactly on the first tick on which the timer reaches 1.0. -/
theorem launch_apex_latch_explode (s : FwState) (dt : ℚ) (r : Draws)
    (h : s.exploded = false) :
    ((s.update dt r).apexReached = (s.apexReached || decide (s.vy + 100 * dt > 0))) ∧
    ((s.update dt r).timeSinceApex =
      (if s.apexReached = true ∨ s.vy + 100 * dt > 0 then s.timeSinceApex + dt
       else s.timeSinceApex)) ∧
    ((s.update dt r).exploded = true ↔
      ((s.apexReached = true ∨ s.vy + 100 * dt > 0) ∧ 1 ≤ s.timeSinceApex + dt)) := by
  by_cases ha : s.apexReached = true <;> by_cases hv : s.vy + 100 * dt > 0 <;>
    by_cases ht : 1 ≤ s.timeSinceApex + dt <;>
    simp [FwState.update, FwState.explode, h, ha, hv, ht,
      Bool.not_eq_true, not_lt.1, le_of_not_le]

/-- C1 counterexample: with `vy = -25/32` and `dt = 1/128` the vertical
velocity crosses from negative to exactly zero on this tick (non-negative, as
the claim requires), yet the apex flag does not latch because the code tests
for a strictly positive velocity. -/
theorem launch_apex_latch_counterexample :
    (FwState.mk 0 0 0 0 (-25 / 32) 0 (Color.idx 1) false [] false 0 []).vy < 0 ∧
    (FwState.mk 0 0 0 0 (-25 / 32) 0 (Color.idx 1) false [] false 0 []).vy +
      100 * (1 / 128 : ℚ) = 0 ∧
    ((FwState.mk 0 0 0 0 (-25 / 32) 0 (Color.idx 1) false [] false 0 []).update (1 / 128)
      (Draws.mk 0 0 (fun _ => (0, 0, 0)) (fun _ => 0) (fun _ => 0))).apexReached = false := by
  refine ⟨by norm_num, by norm_num, ?_⟩
  simp [FwState.update, FwState.explode]
  norm_num

/-- Witness for C1: a launching state with `vy = -1` latches on a tick with
`dt = 1/50` (post-gravity velocity 1 > 0), accumulates the timer, and does
not explode yet. -/
theorem launch_apex_latch_explode_witness :
    (((FwState.mk 0 0 0 0 (-1) 0 (Color.idx 1) false [] false 0 []).update (1 / 50)
        (Draws.mk 0 0 (fun _ => (0, 0, 0)) (fun _ => 0) (fun _ => 0))).apexReached =
      (false || decide ((-1 : ℚ) + 100 * (1 / 50) > 0))) ∧
    (((FwState.mk 0 0 0 0 (-1) 0 (Color.idx 1) false [] false 0 []).update (1 / 50)
        (Draws.mk 0 0 (fun _ => (0, 0, 0)) (fun _ => 0) (fun _ => 0))).timeSinceApex =
      (if (false : Bool) = true ∨ (-1 : ℚ) + 100 * (1 / 50) > 0 then (0 : ℚ) + 1 / 50
       else 0)) ∧
    (((FwState.mk 0 0 0 0 (-1) 0 (Color.idx 1) false [] false 0 []).update (1 / 50)
        (Draws.mk 0 0 (fun _ => (0, 0, 0)) (fun _ => 0) (fun _ => 0))).exploded = true ↔
      (((false : Bool) = true ∨ (-1 : ℚ) + 100 * (1 / 50) > 0) ∧
        (1 : ℚ) ≤ 0 + 1 / 50)) :=
  launch_apex_latch_explode
    (FwState.mk 0 0 0 0 (-1) 0 (Color.idx 1) false [] false 0 [])
    (1 / 50) (Draws.mk 0 0 (fun _ => (0, 0, 0)) (fun _ => 0) (fun _ => 0)) rfl

/-- **C9.** A firework's phase transition is one-way: once `exploded` is set
an update never clears it, and an EXPLODED tick never increases the particle
count; `explode` itself sets the flag and, called with an empty particle set
(as on the launch path) and a draw in the `randint(450, 750)` range, leaves
exactly the drawn number of particles. -/
theorem firework_phase_one_way_particle_count (s : FwState) (dt : ℚ) (r : Draws) :
    (s.exploded = true → (s.update dt r).exploded = true) ∧
    (s.exploded = true →
      (s.update dt r).particles.length ≤ s.particles.length) ∧
    ((s.explode r).exploded = true) ∧
    (s.particles = [] → 450 ≤ r.numParticles → r.numParticles ≤ 750 →
      (s.explode r).particles.length = r.numParticles) := by
  refine ⟨?_, ?_, ?_, ?_⟩
  · intro h
    unfold FwState.update
    rw [if_neg (by simp [h])]
    exact h
  · intro h
    unfold FwState.update
    rw [if_neg (by simp [h])]
    calc ((s.particles.map (fun p => p.update dt 50 (97 / 100))).filter
        (fun p => p.isAlive)).length
        ≤ (s.particles.map (fun p => p.update dt 50 (97 / 100))).length :=
          List.length_filter_le _ _
    _ = s.particles.length := List.length_map _ _
  · rfl
  · intro hp _ _
    unfold FwState.explode
    rw [hp]
    simp

/-- Witness for C9: an exploded one-particle state stays exploded and does not
gain particles; exploding an empty launching state with a 500-particle draw
yields exactly 500 particles. -/
theorem firework_phase_one_way_particle_count_witness :
    (((FwState.mk 0 0 0 0 0 0 (Color.idx 1) true
        [Particle.mk 0 0 0 0 0 0 (Color.idx 1) 1 0] false 0 []).update (1 / 50)
        (Draws.mk 500 1 (fun _ => (0, 1, 0)) (fun _ => 2) (fun _ => 0))).exploded = true) ∧
    (((FwState.mk 0 0 0 0 0 0 (Color.idx 1) true
        [Particle.mk 0 0 0 0 0 0 (Color.idx 1) 1 0] false 0 []).update (1 / 50)
        (Draws.mk 500 1 (fun _ => (0, 1, 0)) (fun _ => 2) (fun _ => 0))).particles.length ≤
      (FwState.mk 0 0 0 0 0 0 (Color.idx 1) true
        [Particle.mk 0 0 0 0 0 0 (Color.idx 1) 1 0] false 0 []).particles.length) ∧
    (((FwState.mk 0 0 0 0 0 0 (Color.idx 2) false [] false 0 []).explode
        (Draws.mk 500 1 (fun _ => (0, 1, 0)) (fun _ => 2) (fun _ => 0))).particles.length =
      500) := by
  have h1 := firework_phase_one_way_particle_count
    (FwState.mk 0 0 0 0 0 0 (Color.idx 1) true
      [Particle.mk 0 0 0 0 0 0 (Color.idx 1) 1 0] false 0 [])
    (1 / 50) (Draws.mk 500 1 (fun _ => (0, 1, 0)) (fun _ => 2) (fun _ => 0))
  have h2 := firework_phase_one_way_particle_count
    (FwState.mk 0 0 0 0 0 0 (Color.idx 2) false [] false 0 [])
    (1 / 50) (Draws.mk 500 1 (fun _ => (0, 1, 0)) (fun _ => 2) (fun _ => 0))
  exact ⟨h1.1 rfl, h1.2.1 rfl, h2.2.2.2 rfl (by norm_num) (by norm_num)⟩

theorem addSample_eq (a b : ℚ × ℚ) : addSample a b = a + b := rfl

theorem callback_foldl_spec (frames : ℕ) :
    ∀ (vs : List Voice) (buf : List (ℚ × ℚ)) (done : List Voice),
      ((vs.foldl (callbackStep frames) (buf, done)).1.length = buf.length) ∧
      ((vs.foldl (callbackStep frames) (buf, done)).2 =
        done ++ vs.map (fun v => Voice.mk v.data
          (v.pos + min (v.data.length - v.pos) frames))) ∧
      (∀ j, j < buf.length →
        (vs.foldl (callbackStep frames) (buf, done)).1.getD j (0, 0) =
          buf.getD j (0, 0) +
            (vs.map (fun v => if j < min (v.data.length - v.pos) frames
              then v.data.getD (v.pos + j) (0, 0)
              else ((0 : ℚ), (0 : ℚ)))).sum) := by
  intro vs
  induction vs with
  | nil => intro buf done; refine ⟨rfl, by simp, fun j hj => by simp⟩
  | cons v rest ih =>
    intro buf done
    rw [List.foldl_cons]
    have hstep : callbackStep frames (buf, done) v =
        (buf.mapIdx (fun j s =>
          if j < min (v.data.length - v.pos) frames
          then addSample s (v.data.getD (v.pos + j) (0, 0)) else s),
         done ++ [Voice.mk v.data (v.pos + min (v.data.length - v.pos) frames)]) := rfl
    rw [hstep]
    have hlen : (buf.mapIdx (fun j s =>
        if j < min (v.data.length - v.pos) frames
        then addSample s (v.data.getD (v.pos + j) (0, 0)) else s)).length = buf.length :=
      List.length_mapIdx
    obtain ⟨ih1, ih2, ih3⟩ := ih (buf.mapIdx (fun j s =>
      if j < min (v.data.length - v.pos) frames
      then addSample s (v.data.getD (v.pos + j) (0, 0)) else s))
      (done ++ [Voice.mk v.data (v.pos + min (v.data.length - v.pos) frames)])
    refine ⟨by rw [ih1, hlen], by rw [ih2]; simp, ?_⟩
    intro j hj
    rw [ih3 j (by rw [hlen]; exact hj)]
    have hget : (buf.mapIdx (fun j s =>
        if j < min (v.data.length - v.pos) frames
        then addSample s (v.data.getD (v.pos + j) (0, 0)) else s)).getD j (0, 0) =
        buf.getD j (0, 0) +
          (if j < min (v.data.length - v.pos) frames
            then v.data.getD (v.pos + j) (0, 0) else ((0 : ℚ), (0 : ℚ))) := by
      rw [List.getD_eq_getElem _ _ (by rw [hlen]; exact hj), List.getElem_mapIdx,
        List.getD_eq_getElem _ _ hj]
      split
      · rw [addSample_eq]
      · exact (add_zero _).symm
    rw [hget, List.map_cons, List.sum_cons, add_assoc]

/-- **C5.** One mixing pass over a zeroed buffer of size `B`: the output has
length `B`; sample `j` of the output is the sum over all voices of
`data[cursor + j]` for exactly those `j < min(remaining, B)` (each voice
contributes exactly `min(remaining, B)` samples read from its cursor); every
voice's cursor advances by exactly `min(remaining, B)`, never past the end,
and the voice is removed after the pass iff its new cursor reached the
variant's length (equivalently iff `remaining ≤ B`). -/
theorem audio_callback_mix_spec (voices : List Voice) (frames : ℕ)
    (hwf : ∀ v ∈ voices, v.pos ≤ v.data.length) :
    (audioCallback voices frames).1.length = frames ∧
    (audioCallback voices frames).2 =
      (voices.map (fun v => Voice.mk v.data
        (v.pos + min (v.data.length - v.pos) frames))).filter
        (fun v => v.pos < v.data.length) ∧
    (∀ j, j < frames →
      (audioCallback voices frames).1.getD j (0, 0) =
        (voices.map (fun v => if j < min (v.data.length - v.pos) frames
          then v.data.getD (v.pos + j) (0, 0) else ((0 : ℚ), (0 : ℚ)))).sum) ∧
    (∀ v ∈ voices,
      v.pos + min (v.data.length - v.pos) frames ≤ v.data.length ∧
      (v.pos + min (v.data.length - v.pos) frames = v.data.length ↔
        v.data.length ≤ v.pos + frames)) := by
  obtain ⟨h1, h2, h3⟩ := callback_foldl_spec frames voices
    (List.replicate frames ((0 : ℚ), (0 : ℚ))) []
  have hcb : audioCallback voices frames =
      ((voices.foldl (callbackStep frames) (List.replicate frames ((0 : ℚ), (0 : ℚ)), [])).1,
       (voices.foldl (callbackStep frames)
           (List.replicate frames ((0 : ℚ), (0 : ℚ)), [])).2.filter
         (fun v => v.pos < v.data.length)) := rfl
  refine ⟨?_, ?_, ?_, ?_⟩
  · rw [hcb]
    simpa using h1
  · rw [hcb]
    dsimp only
    rw [h2]
    simp
  · intro j hj
    rw [hcb]
    dsimp only
    rw [h3 j (by simpa using hj)]
    rw [List.getD_eq_getElem _ _ (by simpa using hj), List.getElem_replicate]
    exact zero_add _
  · intro v hv
    have := hwf v hv
    omega

/-- Witness for C5: two voices over a 2-frame buffer; the 3-sample voice
outputs 2 samples and survives at cursor 2, the 1-sample voice outputs its
single sample and is removed; the buffer holds the mixed sums. -/
theorem audio_callback_mix_spec_witness :
    (audioCallback [Voice.mk [(1, 1), (2, 2), (3, 3)] 0, Voice.mk [(5, 5)] 0] 2).1.length
      = 2 ∧
    (audioCallback [Voice.mk [(1, 1), (2, 2), (3, 3)] 0, Voice.mk [(5, 5)] 0] 2).2 =
      [Voice.mk [(1, 1), (2, 2), (3, 3)] 2] ∧
    (audioCallback [Voice.mk [(1, 1), (2, 2), (3, 3)] 0, Voice.mk [(5, 5)] 0] 2).1.getD 0
      (0, 0) = (6, 6) ∧
    (audioCallback [Voice.mk [(1, 1), (2, 2), (3, 3)] 0, Voice.mk [(5, 5)] 0] 2).1.getD 1
      (0, 0) = (2, 2) := by
  have h := audio_callback_mix_spec
    [Voice.mk [(1, 1), (2, 2), (3, 3)] 0, Voice.mk [(5, 5)] 0] 2
    (by decide)
  refine ⟨h.1, ?_, ?_, ?_⟩
  · rw [h.2.1]
    decide
  · rw [h.2.2.1 0 (by norm_num)]
    norm_num [Prod.ext_iff]
  · rw [h.2.2.1 1 (by norm_num)]
    norm_num [Prod.ext_iff]

theorem playExplosion_enabled_cache (s : SMState) (x sw : ℚ) :
    (playExplosion s x sw).enabled = s.enabled ∧
    (playExplosion s x sw).stereoCache = s.stereoCache := by
  unfold playExplosion
  split
  · exact ⟨rfl, rfl⟩
  split
  · exact ⟨rfl, rfl⟩
  split
  · exact ⟨rfl, rfl⟩
  split
  · exact ⟨rfl, rfl⟩
  · exact ⟨rfl, rfl⟩

theorem playExplosion_length (s : SMState) (x sw : ℚ)
    (hen : s.enabled = true)
    (hd : (cacheGet s.stereoCache (quantizedPan x sw)).isSome = true) :
    (playExplosion s x sw).activeSounds.length =
      if maxConcurrentSounds ≤ s.activeSounds.length then s.activeSounds.length
      else s.activeSounds.length + 1 := by
  obtain ⟨d, hd'⟩ := Option.isSome_iff_exists.1 hd
  have hcne : s.stereoCache ≠ [] := by
    intro hc
    rw [hc] at hd'
    simp [cacheGet] at hd'
  unfold playExplosion
  rw [if_neg (by push_neg; exact ⟨by simp [hen], hcne⟩)]
  by_cases hlen : maxConcurrentSounds ≤ s.activeSounds.length
  · rw [if_pos hlen, if_pos hlen]
  · rw [if_neg hlen, if_neg hlen, hd']
    simp

theorem playExplosion_ceiling (s : SMState) (x sw : ℚ)
    (h : s.activeSounds.length ≤ maxConcurrentSounds) :
    (playExplosion s x sw).activeSounds.length ≤ maxConcurrentSounds := by
  unfold playExplosion
  split
  · exact h
  split
  · exact h
  rename_i hnot
  split
  · simp only [List.length_append, List.length_singleton]
    omega
  split
  · simp only [List.length_append, List.length_singleton]
    omega
  · exact h

theorem audioCallback_length_le (voices : List Voice) (frames : ℕ) :
    (audioCallback voices frames).2.length ≤ voices.length := by
  have hs := (callback_foldl_spec frames voices
    (List.replicate frames ((0 : ℚ), (0 : ℚ))) []).2.1
  have hcb : (audioCallback voices frames).2 =
      (voices.foldl (callbackStep frames)
        (List.replicate frames ((0 : ℚ), (0 : ℚ)), [])).2.filter
        (fun v => v.pos < v.data.length) := rfl
  rw [hcb]
  calc ((voices.foldl (callbackStep frames)
      (List.replicate frames ((0 : ℚ), (0 : ℚ)), [])).2.filter
      (fun v => v.pos < v.data.length)).length
      ≤ (voices.foldl (callbackStep frames)
          (List.replicate frames ((0 : ℚ), (0 : ℚ)), [])).2.length :=
        List.length_filter_le _ _
  _ = voices.length := by rw [hs]; simp

theorem applySMOp_ceiling (t : SMState) (op : SMOp)
    (h : t.activeSounds.length ≤ maxConcurrentSounds) :
    (applySMOp t op).activeSounds.length ≤ maxConcurrentSounds := by
  cases op with
  | play x sw => exact playExplosion_ceiling t x sw h
  | callback frames =>
    calc (applySMOp t (SMOp.callback frames)).activeSounds.length
        = (audioCallback t.activeSounds frames).2.length := rfl
    _ ≤ t.activeSounds.length := audioCallback_length_le _ _
    _ ≤ maxConcurrentSounds := h

/-- **C3.** Starting from an empty voice list with audio enabled and the
looked-up pan bucket cached, `(ceiling+1) = 9` immediate `play()` calls leave
exactly `ceiling = 8` active voices (the ninth is dropped); and under any
serialized sequence of `play()` calls and mixing-callback passes the active
voice count never exceeds the ceiling. -/
theorem voice_ceiling_invariant (s : SMState) (x sw : ℚ)
    (hen : s.enabled = true)
    (hd : (cacheGet s.stereoCache (quantizedPan x sw)).isSome = true)
    (hempty : s.activeSounds = []) :
    ((fun t => playExplosion t x sw)^[maxConcurrentSounds + 1] s).activeSounds.length =
      maxConcurrentSounds ∧
    (∀ (ops : List SMOp) (t : SMState),
      t.activeSounds.length ≤ maxConcurrentSounds →
      (ops.foldl applySMOp t).activeSounds.length ≤ maxConcurrentSounds) := by
  have key : ∀ n : ℕ,
      ((fun t => playExplosion t x sw)^[n] s).enabled = true ∧
      ((fun t => playExplosion t x sw)^[n] s).stereoCache = s.stereoCache ∧
      ((fun t => playExplosion t x sw)^[n] s).activeSounds.length =
        min n maxConcurrentSounds := by
    intro n
    induction n with
    | zero => simpa using ⟨hen, by rw [hempty]⟩
    | succ k ih =>
      obtain ⟨ihe, ihc, ihl⟩ := ih
      rw [Function.iterate_succ_apply']
      refine ⟨?_, ?_, ?_⟩
      · rw [(playExplosion_enabled_cache _ x sw).1]
        exact ihe
      · rw [(playExplosion_enabled_cache _ x sw).2]
        exact ihc
      · rw [playExplosion_length _ x sw ihe (by rw [ihc]; exact hd), ihl]
        split <;> omega
  constructor
  · rw [(key (maxConcurrentSounds + 1)).2.2]
    omega
  · intro ops
    induction ops with
    | nil => intro t h; exact h
    | cons op rest ih =>
      intro t h
      rw [List.foldl_cons]
      exact ih _ (applySMOp_ceiling t op h)

/-- Witness for C3: with one cached center bucket and `x = 1`, `width = 2`
(pan 0), nine sequential `play()` calls from an empty list leave exactly 8
voices; the empty operation sequence trivially respects the ceiling. -/
theorem voice_ceiling_invariant_witness :
    ((fun t => playExplosion t 1 2)^[maxConcurrentSounds + 1]
      (SMState.mk true [(0, [(1, 1)])] [])).activeSounds.length =
      maxConcurrentSounds ∧
    (([] : List SMOp).foldl applySMOp (SMState.mk true [(0, [(1, 1)])] [])).activeSounds.length ≤
      maxConcurrentSounds := by
  have hq : quantizedPan 1 2 = 0 := by
    unfold quantizedPan npClip pyRound3 pyRound
    norm_num [round_eq, Int.even_iff]
  have h := voice_ceiling_invariant (SMState.mk true [(0, [(1, 1)])] []) 1 2 rfl
    (by rw [hq]; rfl) rfl
  exact ⟨h.1, h.2 [] (SMState.mk true [(0, [(1, 1)])] []) (by norm_num)⟩

theorem getLast?_cons_of_ne_nil {α : Type} (a : α) (l : List α) (h : l ≠ []) :
    (a :: l).getLast? = l.getLast? := by
  cases l with
  | nil => exact absurd rfl h
  | cons b t => exact List.getLast?_cons_cons

theorem mem_of_getLast?_eq {α : Type} {l : List α} {a : α}
    (h : l.getLast? = some a) : a ∈ l := by
  induction l with
  | nil => simp at h
  | cons b t ih =>
    cases t with
    | nil =>
      simp only [List.getLast?_singleton, Option.some.injEq] at h
      rw [h]
      exact List.mem_singleton_self a
    | cons c t' =>
      rw [List.getLast?_cons_cons] at h
      exact List.mem_cons_of_mem _ (ih h)

theorem bresAux_ne_nil (tx ty dx dy sx sy : ℤ) (fuel : ℕ) (x y err : ℤ) :
    bresAux tx ty dx dy sx sy fuel x y err ≠ [] := by
  rw [bresAux.eq_def]
  exact List.cons_ne_nil _ _

/-- Correctness of the Bresenham loop: from any reachable state (progress
`(ax, ay)` toward the endpoint, with the loop's error term determined by the
progress) and enough fuel, the produced list ends exactly at `(tx, ty)`. -/
theorem bresAux_getLast (tx ty dx dy sx sy : ℤ)
    (hsx : sx = 1 ∨ sx = -1) (hsy : sy = 1 ∨ sy = -1) :
    ∀ (fuel : ℕ) (ax ay : ℤ),
      0 ≤ ax → ax ≤ dx → 0 ≤ ay → ay ≤ dy →
      (dx - ax) + (dy - ay) ≤ (fuel : ℤ) →
      (bresAux tx ty dx dy sx sy fuel (tx - (dx - ax) * sx) (ty - (dy - ay) * sy)
        (dx * (ay + 1) - dy * (ax + 1))).getLast? = some (tx, ty) := by
  intro fuel
  induction fuel with
  | zero =>
    intro ax ay h1 h2 h3 h4 h5
    have hax : ax = dx := by omega
    have hay : ay = dy := by omega
    subst hax
    subst hay
    rw [bresAux]
    rw [if_pos (by constructor <;> ring)]
    have hx : tx - (ax - ax) * sx = tx := by ring
    have hy : ty - (ay - ay) * sy = ty := by ring
    rw [hx, hy]
    rfl
  | succ n ih =>
    intro ax ay h1 h2 h3 h4 h5
    by_cases hdone : tx - (dx - ax) * sx = tx ∧ ty - (dy - ay) * sy = ty
    · rw [bresAux, if_pos hdone, hdone.1, hdone.2]
      rfl
    · have hsx0 : sx ≠ 0 := by rcases hsx with h | h <;> omega
      have hsy0 : sy ≠ 0 := by rcases hsy with h | h <;> omega
      have hnd : ¬(ax = dx ∧ ay = dy) := by
        intro ⟨hax, hay⟩
        exact hdone ⟨by rw [hax]; ring, by rw [hay]; ring⟩
      simp only [bresAux]
      rw [if_neg hdone]
      rw [getLast?_cons_of_ne_nil _ _ (bresAux_ne_nil _ _ _ _ _ _ _ _ _ _)]
      by_cases hcx : 2 * (dx * (ay + 1) - dy * (ax + 1)) > -dy <;>
        by_cases hcy : 2 * (dx * (ay + 1) - dy * (ax + 1)) < dx
      · -- both x and y step
        rw [if_pos hcx, if_pos hcx, if_pos hcy, if_pos hcy]
        have haxlt : ax < dx := by
          by_contra hc
          have hax : ax = dx := by omega
          have hay : ay < dy := by
            rcases lt_or_eq_of_le h4 with h | h
            · exact h
            · exact absurd ⟨hax, h⟩ hnd
          have hdy1 : 1 ≤ dy := by omega
          subst hax
          nlinarith [mul_le_mul_of_nonneg_left (show ay + 1 ≤ dy by omega)
            (show (0 : ℤ) ≤ 2 * ax by omega)]
        have haylt : ay < dy := by
          by_contra hc
          have hay : ay = dy := by omega
          have hax2 : ax < dx := by
            rcases lt_or_eq_of_le h2 with h | h
            · exact h
            · exact absurd ⟨h, hay⟩ hnd
          have hdx1 : 1 ≤ dx := by omega
          subst hay
          nlinarith [mul_le_mul_of_nonneg_left (show ax + 1 ≤ dx by omega)
            (show (0 : ℤ) ≤ 2 * ay by omega)]
        have hx' : tx - (dx - ax) * sx + sx = tx - (dx - (ax + 1)) * sx := by ring
        have hy' : ty - (dy - ay) * sy + sy = ty - (dy - (ay + 1)) * sy := by ring
        have herr : dx * (ay + 1) - dy * (ax + 1) - dy + dx =
            dx * ((ay + 1) + 1) - dy * ((ax + 1) + 1) := by ring
        rw [hx', hy', herr]
        exact ih (ax + 1) (ay + 1) (by omega) (by omega) (by omega) (by omega)
          (by push_cast at h5; omega)
      · -- only x steps
        rw [if_pos hcx, if_pos hcx, if_neg hcy, if_neg hcy]
        have haxlt : ax < dx := by
          by_contra hc
          have hax : ax = dx := by omega
          have hay : ay < dy := by
            rcases lt_or_eq_of_le h4 with h | h
            · exact h
            · exact absurd ⟨hax, h⟩ hnd
          have hdy1 : 1 ≤ dy := by omega
          subst hax
          nlinarith [mul_le_mul_of_nonneg_left (show ay + 1 ≤ dy by omega)
            (show (0 : ℤ) ≤ 2 * ax by omega)]
        have hx' : tx - (dx - ax) * sx + sx = tx - (dx - (ax + 1)) * sx := by ring
        have herr : dx * (ay + 1) - dy * (ax + 1) - dy =
            dx * (ay + 1) - dy * ((ax + 1) + 1) := by ring
        rw [hx', herr]
        exact ih (ax + 1) ay (by omega) (by omega) h3 h4
          (by push_cast at h5; omega)
      · -- only y steps
        rw [if_neg hcx, if_neg hcx, if_pos hcy, if_pos hcy]
        have haylt : ay < dy := by
          by_contra hc
          have hay : ay = dy := by omega
          have hax2 : ax < dx := by
            rcases lt_or_eq_of_le h2 with h | h
            · exact h
            · exact absurd ⟨h, hay⟩ hnd
          have hdx1 : 1 ≤ dx := by omega
          subst hay
          nlinarith [mul_le_mul_of_nonneg_left (show ax + 1 ≤ dx by omega)
            (show (0 : ℤ) ≤ 2 * ay by omega)]
        have hy' : ty - (dy - ay) * sy + sy = ty - (dy - (ay + 1)) * sy := by ring
        have herr : dx * (ay + 1) - dy * (ax + 1) + dx =
            dx * ((ay + 1) + 1) - dy * (ax + 1) := by ring
        rw [hy', herr]
        exact ih ax (ay + 1) h1 h2 (by omega) (by omega)
          (by push_cast at h5; omega)
      · -- neither fires: impossible
        exfalso
        have hle : dx ≤ 2 * (dx * (ay + 1) - dy * (ax + 1)) := by omega
        have hge : 2 * (dx * (ay + 1) - dy * (ax + 1)) ≤ -dy := by omega
        have hdd : dx + dy ≤ 0 := by linarith
        have hdx0 : dx = 0 := by omega
        have hdy0 : dy = 0 := by omega
        exact hnd ⟨by omega, by omega⟩

theorem bresenhamLine_getLast (x0 y0 x1 y1 : ℤ) :
    (bresenhamLine x0 y0 x1 y1).getLast? = some (x1, y1) := by
  have hstart : bresenhamLine x0 y0 x1 y1 =
      bresAux x1 y1 |x1 - x0| |y1 - y0| (if x0 < x1 then 1 else -1)
        (if y0 < y1 then 1 else -1) (|x1 - x0| + |y1 - y0|).toNat x0 y0
        (|x1 - x0| - |y1 - y0|) := rfl
  have hx : x0 = x1 - (|x1 - x0| - 0) * (if x0 < x1 then 1 else -1) := by
    by_cases h : x0 < x1
    · rw [if_pos h, abs_of_pos (by omega)]
      ring
    · rw [if_neg h, abs_of_nonpos (by omega)]
      ring
  have hy : y0 = y1 - (|y1 - y0| - 0) * (if y0 < y1 then 1 else -1) := by
    by_cases h : y0 < y1
    · rw [if_pos h, abs_of_pos (by omega)]
      ring
    · rw [if_neg h, abs_of_nonpos (by omega)]
      ring
  have herr : |x1 - x0| - |y1 - y0| =
      |x1 - x0| * (0 + 1) - |y1 - y0| * (0 + 1) := by ring
  have hsx : (if x0 < x1 then (1 : ℤ) else -1) = 1 ∨
      (if x0 < x1 then (1 : ℤ) else -1) = -1 := by
    split
    · exact Or.inl rfl
    · exact Or.inr rfl
  have hsy : (if y0 < y1 then (1 : ℤ) else -1) = 1 ∨
      (if y0 < y1 then (1 : ℤ) else -1) = -1 := by
    split
    · exact Or.inl rfl
    · exact Or.inr rfl
  have happ := bresAux_getLast x1 y1 |x1 - x0| |y1 - y0|
    (if x0 < x1 then (1 : ℤ) else -1) (if y0 < y1 then (1 : ℤ) else -1) hsx hsy
    (|x1 - x0| + |y1 - y0|).toNat 0 0 le_rfl (abs_nonneg _) le_rfl (abs_nonneg _)
    (by rw [Int.toNat_of_nonneg (by positivity)]; omega)
  rw [← hx, ← hy, ← herr] at happ
  rw [hstart]
  exact happ

/-- **C7.** `_bresenham_line(0,0,4,0)` yields exactly
`[(0,0),(1,0),(2,0),(3,0),(4,0)]` in order and `line` feeds those points to
`plot`; the degenerate call yields exactly `[(0,0)]`; and for all integer
endpoints the generated point list is finite (total), starts at the first
endpoint and ends at the second, so it includes both endpoints. -/
theorem bresenham_endpoints_spec (x0 y0 x1 y1 : ℤ) (c : Canvas) (col : Color) :
    bresenhamLine 0 0 4 0 = [(0, 0), (1, 0), (2, 0), (3, 0), (4, 0)] ∧
    bresenhamLine 0 0 0 0 = [(0, 0)] ∧
    c.line x0 y0 x1 y1 col = c.plot col (bresenhamLine x0 y0 x1 y1) ∧
    (bresenhamLine x0 y0 x1 y1).head? = some (x0, y0) ∧
    (bresenhamLine x0 y0 x1 y1).getLast? = some (x1, y1) ∧
    (x0, y0) ∈ bresenhamLine x0 y0 x1 y1 ∧
    (x1, y1) ∈ bresenhamLine x0 y0 x1 y1 := by
  have hhead : (bresenhamLine x0 y0 x1 y1).head? = some (x0, y0) := by
    rw [show bresenhamLine x0 y0 x1 y1 =
      bresAux x1 y1 |x1 - x0| |y1 - y0| (if x0 < x1 then 1 else -1)
        (if y0 < y1 then 1 else -1) (|x1 - x0| + |y1 - y0|).toNat x0 y0
        (|x1 - x0| - |y1 - y0|) from rfl, bresAux.eq_def]
    rfl
  have hlast := bresenhamLine_getLast x0 y0 x1 y1
  refine ⟨by decide, by decide, rfl, hhead, hlast, ?_, ?_⟩
  · cases hb : bresenhamLine x0 y0 x1 y1 with
    | nil => rw [hb] at hhead; exact absurd hhead (by simp)
    | cons a t =>
      rw [hb] at hhead
      simp only [List.head?_cons, Option.some.injEq] at hhead
      rw [← hhead]
      exact List.mem_cons_self a t
  · exact mem_of_getLast?_eq hlast

end NY2026
